import Mathlib

/-!
Shallow embedding of the RTTI image extractor (src/main.cpp).

The program scans a binary file for occurrences of the marker byte string
"Image8", skips one delimiter byte, reads two little-endian 32-bit integers
(width, height), validates them against MaxWidth/MaxHeight, reads
width*height*3 raw pixel bytes and writes them out as a 24-bit BMP file
(bottom-up rows, per-pixel swap of channels 0 and 2, rows padded to a
multiple of 4 bytes).

Byte streams are modelled as List Nat (each element a byte value, < 256 for
well-formed inputs).  C++ int values are modelled as Int with explicit
two's-complement reduction where the code can overflow.  The run of
ImageFile::Process is modelled as a function from the input stream to
Option (List (List Nat)): some outs is a normal run emitting the encoded
files outs in order, none is a run aborted by an uncaught exception
(std::length_error from the std::vector constructor when the computed pixel
byte count is negative; only std::runtime_error is caught in Process).
-/

/-- Byte values of the configured marker string "Image8"
(ImageConfig::Headers[0] in src/main.cpp). -/
def headerBytes : List Nat := [73, 109, 97, 103, 101, 56]

/-- ImageConfig::MaxWidth. -/
def MaxWidth : Int := 2000

/-- ImageConfig::MaxHeight. -/
def MaxHeight : Int := 2000

/-- One step of the sliding window kept by ImageFile::FindHeader: push the
incoming byte at the back and, if the buffer is now longer than the marker,
erase the oldest (front) byte.  (The second trim after the header loop in
the source is a no-op, since the buffer never exceeds the marker length by
more than one byte.) -/
def slideWindow (buf : List Nat) (c : Nat) : List Nat :=
  if headerBytes.length < (buf ++ [c]).length then (buf ++ [c]).drop 1
  else buf ++ [c]

/-- Loop body of ImageFile::FindHeader: consume bytes one at a time, slide
the window, and return the rest of the stream as soon as the window equals
the marker.  Returns none when the stream is exhausted without a match. -/
def FindHeaderAux : List Nat → List Nat → Option (List Nat)
  | _, [] => none
  | buf, c :: rest =>
    if slideWindow buf c = headerBytes then some rest
    else FindHeaderAux (slideWindow buf c) rest

/-- ImageFile::FindHeader: the buffer starts empty on every call. -/
def FindHeader (s : List Nat) : Option (List Nat) := FindHeaderAux [] s

/-- Reinterpret an unsigned 32-bit magnitude as a signed 32-bit int, as the
assignment to the int dimension in ImageFile::ReadDimensions does. -/
def toSigned32 (n : Nat) : Int :=
  if n < 2 ^ 31 then (n : Int) else (n : Int) - 2 ^ 32

/-- One 4-byte little-endian read of ImageFile::ReadDimensions:
bytes[0] | (bytes[1] << 8) | (bytes[2] << 16) | (bytes[3] << 24).
Returns none when fewer than 4 bytes remain (the stream read fails and the
function throws; the consumed prefix is irrelevant because the stream is in
a failed state from then on). -/
def ReadLE32 : List Nat → Option (Nat × List Nat)
  | b0 :: b1 :: b2 :: b3 :: rest =>
    some (b0 ||| (b1 <<< 8) ||| (b2 <<< 16) ||| (b3 <<< 24), rest)
  | _ => none

/-- ImageFile::ReadDimensions: two 4-byte little-endian reads, width first,
then height, each stored into a C++ int. -/
def ReadDimensions (s : List Nat) : Option ((Int × Int) × List Nat) :=
  match ReadLE32 s with
  | none => none
  | some (w0, s1) =>
    match ReadLE32 s1 with
    | none => none
    | some (h0, s2) => some ((toSigned32 w0, toSigned32 h0), s2)

/-- Per-pixel swap of channels 0 and 2 performed by the row loop in
ImageFile::SaveAsBMP (std::swap of pixel_red and pixel_blue). -/
def swapTriples : List Nat → List Nat
  | b0 :: b1 :: b2 :: rest => b2 :: b1 :: b0 :: swapTriples rest
  | l => l

/-- Byte k*8..k*8+7 of a C++ int value, as produced by the assignments
header[i] = value >> k (conversion to unsigned char reduces mod 256; the
shift on a non-negative int is a floor division by 2^k). -/
def byteAt (n : Int) (k : Nat) : Int := n.fdiv (2 ^ k) % 256

/-- The 14-byte BMP file header built in ImageFile::SaveAsBMP, with the
4-byte little-endian file size patched in at offsets 2..5. -/
def bmpFileHeader (fileSize : Int) : List Nat :=
  [66, 77, (byteAt fileSize 0).toNat, (byteAt fileSize 8).toNat,
   (byteAt fileSize 16).toNat, (byteAt fileSize 24).toNat,
   0, 0, 0, 0, 54, 0, 0, 0]

/-- The 40-byte BMP info header built in ImageFile::SaveAsBMP: header size
40, width and height as 4-byte little-endian values at offsets 4..7 and
8..11, planes = 1, bits per pixel = 24, remaining 24 bytes zero. -/
def bmpInfoHeader (w h : Int) : List Nat :=
  [40, 0, 0, 0,
   (byteAt w 0).toNat, (byteAt w 8).toNat, (byteAt w 16).toNat,
   (byteAt w 24).toNat,
   (byteAt h 0).toNat, (byteAt h 8).toNat, (byteAt h 16).toNat,
   (byteAt h 24).toNat,
   1, 0, 24, 0] ++ List.replicate 24 0

/-- paddingAmount = (4 - (width * 3) % 4) % 4 with C++ truncated %. -/
def paddingAmount (w : Int) : Int := (4 - (w * 3).tmod 4).tmod 4

/-- fileSize = 54 + (width * 3 + paddingAmount) * height. -/
def bmpFileSize (w h : Int) : Int := 54 + (w * 3 + paddingAmount w) * h

/-- Row i of the pixel buffer as written by ImageFile::SaveAsBMP: the
width*3 bytes starting at offset i*width*3, with channels 0 and 2 of every
pixel swapped (the in-place swap happens right before the row is written,
so the bytes written for row i come from the original buffer contents). -/
def bmpRow (img : List Nat) (w i : Nat) : List Nat :=
  swapTriples ((img.drop (i * w * 3)).take (w * 3))

/-- The pixel section of the BMP output: rows are emitted bottom-up
(i = height-1 down to 0), each followed by paddingAmount zero bytes. -/
def bmpPixelData (img : List Nat) (w h pad : Nat) : List Nat :=
  (((List.range h).reverse).map
    (fun i => bmpRow img w i ++ List.replicate pad 0)).flatten

/-- ImageFile::SaveAsBMP.  First component: the bytes written to the output
file (14-byte file header, 40-byte info header, then the padded bottom-up
rows).  Second component: the contents of the caller's pixel buffer after
the call; the function swaps channels 0 and 2 of every pixel in place
through a const_cast, so each visited row comes back swapped (rows are laid
out in index order 0..h-1 in memory; bytes past h*w*3, if any, are
untouched).  The loop only visits rows 0..height-1, so a non-positive
height writes and mutates nothing. -/
def SaveAsBMP (img : List Nat) (w h : Int) : List Nat × List Nat :=
  (bmpFileHeader (bmpFileSize w h) ++ bmpInfoHeader w h ++
     bmpPixelData img w.toNat h.toNat (paddingAmount w).toNat,
   ((List.range h.toNat).map (fun i => bmpRow img w.toNat i)).flatten ++
     img.drop (h.toNat * w.toNat * 3))

/-- The pixel byte count width * height * 3 as computed by the C++ int
arithmetic in ImageFile::Process, with two's-complement wrap-around. -/
def pixelCount (w h : Int) : Int :=
  toSigned32 ((w * h * 3 % 2 ^ 32).toNat)

/-- Fuel-indexed loop of ImageFile::Process.  Each iteration: find the next
marker (failure ends the run), skip one delimiter byte (hitting the end of
the stream there makes the following dimension read fail, ending the run),
read the dimensions (a truncated read throws std::runtime_error, which is
caught, but leaves the stream failed, so the next FindHeader ends the run),
skip the record if width or height exceeds the maxima, compute the pixel
byte count width*height*3 in wrapping int arithmetic (a negative count
makes the std::vector constructor throw std::length_error, which is not
caught: the run aborts, modelled none), read that many pixel bytes (a short
read fails the stream, ending the run), and emit the encoded BMP.  The fuel
only serves to make the recursion structural; s.length + 1 is always
enough, since every iteration consumes at least the marker. -/
def ProcessF : Nat → List Nat → Option (List (List Nat))
  | 0, _ => some []
  | fuel + 1, s =>
    match FindHeader s with
    | none => some []
    | some rest =>
      match rest with
      | [] => some []
      | _ :: afterDelim =>
        match ReadDimensions afterDelim with
        | none => some []
        | some ((w, h), rest2) =>
          if MaxWidth < w ∨ MaxHeight < h then ProcessF fuel rest2
          else if pixelCount w h < 0 then none
          else if (rest2.length : Int) < pixelCount w h then some []
          else
            (ProcessF fuel (rest2.drop (pixelCount w h).toNat)).map
              (fun outs => (SaveAsBMP (rest2.take ((pixelCount w h).toNat)) w h).1 :: outs)

/-- ImageFile::Process on the whole input stream. -/
def Process (s : List Nat) : Option (List (List Nat)) :=
  ProcessF (s.length + 1) s

/-- Little-endian 4-byte encoding of a natural number below 2^32; used to
build concrete record headers and to state what the 4-byte fields of the
BMP headers mean. -/
def le4 (n : Nat) : List Nat :=
  [n % 256, n / 256 % 256, n / 65536 % 256, n / 16777216 % 256]

/-- Row padding as a natural number, for widths that are naturals:
(4 - (w * 3) % 4) % 4. -/
def padNat (w : Nat) : Nat := (4 - w * 3 % 4) % 4

/-- Split a list into consecutive chunks of n elements (the last chunk may
be shorter); used to phrase the decoding direction of the round-trip
property. -/
def chunksOf (n : Nat) (l : List Nat) : List (List Nat) :=
  if h : l = [] ∨ n = 0 then [] else l.take n :: chunksOf n (l.drop n)
termination_by l.length
decreasing_by
  rw [List.length_drop]
  have hl : l ≠ [] := fun hc => h (Or.inl hc)
  have hn : n ≠ 0 := fun hc => h (Or.inr hc)
  have hpos : 0 < l.length := List.length_pos.mpr hl
  omega

/-- Inverse transformation stated by the round-trip claim: cut the pixel
section of the BMP output into its padded rows, reverse the bottom-up row
order, and for each row drop the padding and swap channels 0 and 2 of each
pixel back. -/
def decodePixelData (b : List Nat) (w : Nat) : List Nat :=
  ((chunksOf (w * 3 + padNat w) b).reverse.map
    (fun row => swapTriples (row.take (w * 3)))).flatten

/-! ### Little-endian arithmetic -/

theorem headerBytes_length : headerBytes.length = 6 := rfl

/-- Bitwise or with a left-shifted value is plain addition when the low
part fits below the shift. -/
theorem lor_shiftLeft_eq_add (k : Nat) :
    ∀ a b : Nat, a < 2 ^ k → a ||| b <<< k = a + b <<< k := by
  induction k with
  | zero =>
    intro a b ha
    have : a = 0 := by omega
    subst this
    simp
  | succ k ih =>
    intro a b ha
    have hbit : Nat.bit (Nat.bodd a) (Nat.div2 a) = a := Nat.bit_decomp a
    have hdiv : Nat.div2 a < 2 ^ k := by
      have h2 : 2 ^ (k + 1) = 2 * 2 ^ k := by ring
      rw [Nat.div2_val]
      omega
    have hsh : b <<< (k + 1) = Nat.bit false (b <<< k) := by
      rw [Nat.shiftLeft_succ]
      rfl
    have ha2 : a = 2 * Nat.div2 a + (Nat.bodd a).toNat := by
      conv_lhs => rw [← hbit]
      rw [Nat.bit_val]
    calc a ||| b <<< (k + 1)
        = Nat.bit (Nat.bodd a) (Nat.div2 a) ||| Nat.bit false (b <<< k) := by
          rw [hbit, hsh]
      _ = Nat.bit (Nat.bodd a || false) (Nat.div2 a ||| b <<< k) :=
          Nat.lor_bit _ _ _ _
      _ = Nat.bit (Nat.bodd a) (Nat.div2 a + b <<< k) := by
          rw [Bool.or_false, ih _ _ hdiv]
      _ = a + b <<< (k + 1) := by
          rw [Nat.bit_val, Nat.shiftLeft_succ]
          omega

/-- The value assembled by b0 | b1 << 8 | b2 << 16 | b3 << 24 is the base
256 little-endian number with digits b0, b1, b2, b3. -/
theorem le32_value (b0 b1 b2 b3 : Nat) (h0 : b0 < 256) (h1 : b1 < 256)
    (h2 : b2 < 256) (h3 : b3 < 256) :
    b0 ||| b1 <<< 8 ||| b2 <<< 16 ||| b3 <<< 24 =
      b0 + b1 * 256 + b2 * 65536 + b3 * 16777216 := by
  have s8 : b1 <<< 8 = b1 * 256 := by rw [Nat.shiftLeft_eq]
  have s16 : b2 <<< 16 = b2 * 65536 := by rw [Nat.shiftLeft_eq]
  have s24 : b3 <<< 24 = b3 * 16777216 := by rw [Nat.shiftLeft_eq]
  have p8 : (2 : Nat) ^ 8 = 256 := by norm_num
  have p16 : (2 : Nat) ^ 16 = 65536 := by norm_num
  have p24 : (2 : Nat) ^ 24 = 16777216 := by norm_num
  have e1 : b0 ||| b1 <<< 8 = b0 + b1 <<< 8 :=
    lor_shiftLeft_eq_add 8 b0 b1 (by omega)
  have e2 : (b0 + b1 <<< 8) ||| b2 <<< 16 = b0 + b1 <<< 8 + b2 <<< 16 :=
    lor_shiftLeft_eq_add 16 _ b2 (by omega)
  have e3 : (b0 + b1 <<< 8 + b2 <<< 16) ||| b3 <<< 24 =
      b0 + b1 <<< 8 + b2 <<< 16 + b3 <<< 24 :=
    lor_shiftLeft_eq_add 24 _ b3 (by omega)
  rw [e1, e2, e3]
  omega

/-- Reading 4 bytes produced by le4 recovers the encoded value and leaves
the rest of the stream untouched. -/
theorem ReadLE32_le4 (n : Nat) (hn : n < 2 ^ 32) (rest : List Nat) :
    ReadLE32 (le4 n ++ rest) = some (n, rest) := by
  have h32 : (2 : Nat) ^ 32 = 4294967296 := by norm_num
  simp only [le4, List.cons_append, List.nil_append, ReadLE32]
  rw [le32_value _ _ _ _ (by omega) (by omega) (by omega) (by omega)]
  refine congrArg (fun v => some (v, rest)) ?_
  omega

theorem ReadLE32_short (s : List Nat) (h : s.length < 4) : ReadLE32 s = none := by
  rcases s with _ | ⟨b0, _ | ⟨b1, _ | ⟨b2, _ | ⟨b3, rest⟩⟩⟩⟩
  · rfl
  · rfl
  · rfl
  · rfl
  · simp at h
    omega

theorem ReadLE32_length {s : List Nat} {v : Nat} {r : List Nat}
    (h : ReadLE32 s = some (v, r)) : s.length = r.length + 4 := by
  rcases s with _ | ⟨b0, _ | ⟨b1, _ | ⟨b2, _ | ⟨b3, rest⟩⟩⟩⟩ <;>
    simp [ReadLE32] at h
  obtain ⟨-, h2⟩ := h
  simp [← h2]

theorem ReadDimensions_length {s : List Nat} {d : Int × Int} {r : List Nat}
    (h : ReadDimensions s = some (d, r)) : s.length = r.length + 8 := by
  unfold ReadDimensions at h
  split at h
  · simp at h
  next v1 r1 h1 =>
    split at h
    · simp at h
    next v2 r2 h2 =>
      simp only [Option.some.injEq, Prod.mk.injEq] at h
      obtain ⟨-, hr⟩ := h
      have e1 := ReadLE32_length h1
      have e2 := ReadLE32_length h2
      subst hr
      omega

/-! ### Marker scanner -/

theorem slideWindow_length {buf : List Nat} (h : buf.length ≤ 6) (c : Nat) :
    (slideWindow buf c).length ≤ 6 := by
  unfold slideWindow
  rw [headerBytes_length]
  split
  next hlen =>
    simp only [List.length_drop, List.length_append, List.length_singleton]
    omega
  next hlen =>
    simp only [not_lt, List.length_append, List.length_singleton] at hlen
    simp only [List.length_append, List.length_singleton]
    omega

/-- The match test performed after sliding the window succeeds exactly when
the bytes consumed so far end with the marker. -/
theorem slideWindow_eq_iff {buf : List Nat} (h : buf.length ≤ 6) (c : Nat) :
    slideWindow buf c = headerBytes ↔ headerBytes <:+ buf ++ [c] := by
  unfold slideWindow
  rw [headerBytes_length]
  split
  next hlen =>
    have hb6 : buf.length = 6 := by simp at hlen; omega
    obtain ⟨b, bt, rfl⟩ : ∃ b bt, buf = b :: bt := by
      cases buf with
      | nil => simp at hb6
      | cons b bt => exact ⟨b, bt, rfl⟩
    have hbt : bt.length = 5 := by simp at hb6; omega
    simp only [List.cons_append, List.drop_succ_cons, List.drop_zero]
    rw [List.suffix_cons_iff]
    constructor
    · intro he
      right
      exact he ▸ List.suffix_refl _
    · rintro (he | hs)
      · have := congrArg List.length he
        simp [headerBytes_length, hbt] at this
      · refine (List.IsSuffix.eq_of_length hs ?_).symm
        simp [headerBytes_length, hbt]
  next hlen =>
    have hle : (buf ++ [c]).length ≤ 6 := by simp at hlen ⊢; omega
    constructor
    · intro he
      exact he ▸ List.suffix_refl _
    · intro hs
      refine (List.IsSuffix.eq_of_length hs ?_).symm
      have := hs.length_le
      rw [headerBytes_length] at this ⊢
      omega

/-- Sliding the window does not change whether any later extension ends
with the marker. -/
theorem suffix_slideWindow {buf : List Nat} (h : buf.length ≤ 6) (c : Nat)
    (t : List Nat) :
    headerBytes <:+ slideWindow buf c ++ t ↔ headerBytes <:+ (buf ++ [c]) ++ t := by
  unfold slideWindow
  rw [headerBytes_length]
  split
  next hlen =>
    have hb6 : buf.length = 6 := by simp at hlen; omega
    obtain ⟨b, bt, rfl⟩ : ∃ b bt, buf = b :: bt := by
      cases buf with
      | nil => simp at hb6
      | cons b bt => exact ⟨b, bt, rfl⟩
    have hbt : bt.length = 5 := by simp at hb6; omega
    simp only [List.cons_append, List.drop_succ_cons, List.drop_zero]
    rw [List.suffix_cons_iff]
    constructor
    · intro hs
      exact Or.inr hs
    · rintro (he | hs)
      · have := congrArg List.length he
        simp [headerBytes_length, hbt] at this
      · exact hs
  next => exact Iff.rfl

/-- Soundness of the scanner loop: a successful scan splits the stream at a
point where the consumed part ends with the marker. -/
theorem FindHeaderAux_some_suffix :
    ∀ (s buf : List Nat), buf.length ≤ 6 →
      ∀ r, FindHeaderAux buf s = some r →
        ∃ t, t ≠ [] ∧ s = t ++ r ∧ headerBytes <:+ buf ++ t := by
  intro s
  induction s with
  | nil => intro buf hb r hr; simp [FindHeaderAux] at hr
  | cons c rest ih =>
    intro buf hb r hr
    rw [FindHeaderAux] at hr
    split at hr
    next hw =>
      injection hr with hr
      subst hr
      refine ⟨[c], by simp, rfl, ?_⟩
      exact (slideWindow_eq_iff hb c).mp hw
    next hw =>
      obtain ⟨t, ht, hteq, hsuf⟩ := ih (slideWindow buf c) (slideWindow_length hb c) r hr
      subst hteq
      refine ⟨c :: t, by simp, rfl, ?_⟩
      have h2 := (suffix_slideWindow hb c t).mp hsuf
      rwa [List.append_cons]

/-- Completeness of the scanner loop: an exhausted scan means no consumed
prefix ever ended with the marker. -/
theorem FindHeaderAux_none :
    ∀ (s buf : List Nat), buf.length ≤ 6 → FindHeaderAux buf s = none →
      ∀ t r, t ≠ [] → s = t ++ r → ¬ headerBytes <:+ buf ++ t := by
  intro s
  induction s with
  | nil =>
    intro buf hb hn t r ht hs
    exact absurd (List.append_eq_nil.mp hs.symm).1 ht
  | cons c rest ih =>
    intro buf hb hn t r ht hs hsuf
    rw [FindHeaderAux] at hn
    split at hn
    next hw => simp at hn
    next hw =>
      cases t with
      | nil => exact ht rfl
      | cons c2 t2 =>
        injection hs with h1 h2
        subst h1
        cases t2 with
        | nil =>
          exact hw ((slideWindow_eq_iff hb c).mpr (by simpa using hsuf))
        | cons d t3 =>
          have hsuf2 : headerBytes <:+ slideWindow buf c ++ (d :: t3) := by
            rw [suffix_slideWindow hb c]
            rwa [List.append_cons] at hsuf
          exact ih (slideWindow buf c) (slideWindow_length hb c) hn (d :: t3) r
            (by simp) h2 hsuf2

/-- The scan returns at the earliest marker occurrence: any other split of
the stream whose consumed part ends with the marker leaves at most as long
a remainder. -/
theorem FindHeaderAux_first :
    ∀ (s buf : List Nat), buf.length ≤ 6 →
      ∀ r, FindHeaderAux buf s = some r →
        ∀ t2 r2, t2 ≠ [] → s = t2 ++ r2 → headerBytes <:+ buf ++ t2 →
          r2.length ≤ r.length := by
  intro s
  induction s with
  | nil => intro buf hb r hr; simp [FindHeaderAux] at hr
  | cons c rest ih =>
    intro buf hb r hr t2 r2 ht2 hs hsuf
    rw [FindHeaderAux] at hr
    split at hr
    next hw =>
      injection hr with hr
      subst hr
      have := congrArg List.length hs
      simp only [List.length_cons, List.length_append] at this
      have : 1 ≤ t2.length := by
        cases t2 with
        | nil => exact absurd rfl ht2
        | cons a b => simp
      omega
    next hw =>
      cases t2 with
      | nil => exact absurd rfl ht2
      | cons c2 t3 =>
        injection hs with h1 h2
        subst h1
        cases t3 with
        | nil =>
          exact absurd ((slideWindow_eq_iff hb c).mpr (by simpa using hsuf)) hw
        | cons d t4 =>
          have hsuf2 : headerBytes <:+ slideWindow buf c ++ (d :: t4) := by
            rw [suffix_slideWindow hb c]
            rwa [List.append_cons] at hsuf
          exact ih (slideWindow buf c) (slideWindow_length hb c) r hr (d :: t4) r2
            (by simp) h2 hsuf2

theorem FindHeader_some_decomp {s r : List Nat} (h : FindHeader s = some r) :
    ∃ a, s = a ++ headerBytes ++ r := by
  obtain ⟨t, ht, hs, hsuf⟩ := FindHeaderAux_some_suffix s [] (by simp) r h
  rw [List.nil_append] at hsuf
  obtain ⟨a, ha⟩ := hsuf
  exact ⟨a, by rw [hs, ← ha]⟩

theorem FindHeader_length {s r : List Nat} (h : FindHeader s = some r) :
    r.length + 6 ≤ s.length := by
  obtain ⟨a, ha⟩ := FindHeader_some_decomp h
  subst ha
  simp [headerBytes_length]
  omega

/-- The scanner fails exactly on the streams that contain no occurrence of
the marker. -/
theorem FindHeader_none_iff {s : List Nat} :
    FindHeader s = none ↔ ¬ headerBytes <:+: s := by
  constructor
  · intro hn hinf
    obtain ⟨a, b, hab⟩ := hinf
    exact FindHeaderAux_none s [] (by simp) hn (a ++ headerBytes) b
      (by simp [headerBytes]) (by rw [← hab, List.append_assoc])
      (by rw [List.nil_append]; exact ⟨a, rfl⟩)
  · intro hni
    cases hr : FindHeader s with
    | none => rfl
    | some r =>
      obtain ⟨a, ha⟩ := FindHeader_some_decomp hr
      exact absurd ⟨a, r, ha.symm⟩ hni

/-- The remainder returned by the scanner is the longest one over all
splits of the stream at a marker occurrence. -/
theorem FindHeader_first {s r : List Nat} (h : FindHeader s = some r) :
    ∀ a2 r2, s = a2 ++ headerBytes ++ r2 → r2.length ≤ r.length := by
  intro a2 r2 hs
  exact FindHeaderAux_first s [] (by simp) r h (a2 ++ headerBytes) r2
    (by simp [headerBytes]) (by rw [hs, List.append_assoc])
    (by rw [List.nil_append]; exact ⟨a2, rfl⟩)

/-! ### The extraction driver -/

/-- Fuel does not matter as long as it exceeds the stream length: every
iteration of the loop consumes at least the six marker bytes. -/
theorem ProcessF_congr :
    ∀ (f1 : Nat), ∀ (f2 : Nat) (s : List Nat), s.length < f1 → s.length < f2 →
      ProcessF f1 s = ProcessF f2 s := by
  intro f1
  induction f1 with
  | zero => intro f2 s h1 h2; omega
  | succ f1 ih =>
    intro f2 s h1 h2
    cases f2 with
    | zero => omega
    | succ f2 =>
      cases hf : FindHeader s with
      | none => rw [ProcessF, ProcessF, hf]
      | some rest =>
        cases rest with
        | nil => rw [ProcessF, ProcessF, hf]
        | cons d afterDelim =>
          cases hd : ReadDimensions afterDelim with
          | none =>
            rw [ProcessF, ProcessF, hf]
            simp only [hd]
          | some p =>
            obtain ⟨⟨w, h⟩, rest2⟩ := p
            have hlen1 : rest2.length < s.length := by
              have e1 := FindHeader_length hf
              have e2 := ReadDimensions_length hd
              simp only [List.length_cons] at e1
              omega
            rw [ProcessF, ProcessF, hf]
            simp only [hd]
            by_cases hover : MaxWidth < w ∨ MaxHeight < h
            · rw [if_pos hover, if_pos hover]
              exact ih f2 rest2 (by omega) (by omega)
            · rw [if_neg hover, if_neg hover]
              by_cases hneg : pixelCount w h < 0
              · rw [if_pos hneg, if_pos hneg]
              · rw [if_neg hneg, if_neg hneg]
                by_cases hshort : (rest2.length : Int) < pixelCount w h
                · rw [if_pos hshort, if_pos hshort]
                · rw [if_neg hshort, if_neg hshort]
                  rw [ih f2 (rest2.drop (pixelCount w h).toNat)
                    (by rw [List.length_drop]; omega)
                    (by rw [List.length_drop]; omega)]

theorem Process_eq_ProcessF {f : Nat} {s : List Nat} (h : s.length < f) :
    Process s = ProcessF f s :=
  ProcessF_congr (s.length + 1) f s (by omega) h

/-- Unfolding: no further marker ends the run. -/
theorem Process_noMarker {s : List Nat} (h : FindHeader s = none) :
    Process s = some [] := by
  unfold Process
  rw [ProcessF, h]

/-- Unfolding: a marker right at the end of the stream yields nothing, and
the run ends (the delimiter skip reaches the end, so the dimension read
fails and the stream stays failed). -/
theorem Process_markerAtEnd {s : List Nat} (h : FindHeader s = some []) :
    Process s = some [] := by
  unfold Process
  rw [ProcessF, h]

/-- Unfolding: a truncated dimension read ends the run with no output. -/
theorem Process_truncatedDims {s : List Nat} {d : Nat} {after : List Nat}
    (h : FindHeader s = some (d :: after)) (hd : ReadDimensions after = none) :
    Process s = some [] := by
  unfold Process
  rw [ProcessF, h]
  simp only [hd]

/-- Unfolding: an oversized dimension skips the record; the loop resumes
scanning right behind the header bytes. -/
theorem Process_oversized {s : List Nat} {d : Nat} {after rest2 : List Nat}
    {w h : Int}
    (hf : FindHeader s = some (d :: after))
    (hd : ReadDimensions after = some ((w, h), rest2))
    (hover : MaxWidth < w ∨ MaxHeight < h) :
    Process s = Process rest2 := by
  have hlen1 : rest2.length < s.length := by
    have e1 := FindHeader_length hf
    have e2 := ReadDimensions_length hd
    simp only [List.length_cons] at e1
    omega
  unfold Process
  rw [ProcessF, hf]
  simp only [hd, if_pos hover]
  exact ProcessF_congr s.length (rest2.length + 1) rest2 hlen1 (by omega)

/-- Unfolding: a negative computed pixel byte count aborts the run (the
std::vector constructor throws std::length_error, which Process does not
catch). -/
theorem Process_negativeCount {s : List Nat} {d : Nat} {after rest2 : List Nat}
    {w h : Int}
    (hf : FindHeader s = some (d :: after))
    (hd : ReadDimensions after = some ((w, h), rest2))
    (hover : ¬ (MaxWidth < w ∨ MaxHeight < h))
    (hneg : pixelCount w h < 0) :
    Process s = none := by
  unfold Process
  rw [ProcessF, hf]
  simp only [hd, if_neg hover, if_pos hneg]

/-- Unfolding: a truncated pixel read ends the run with no further output. -/
theorem Process_truncatedPixels {s : List Nat} {d : Nat} {after rest2 : List Nat}
    {w h : Int}
    (hf : FindHeader s = some (d :: after))
    (hd : ReadDimensions after = some ((w, h), rest2))
    (hover : ¬ (MaxWidth < w ∨ MaxHeight < h))
    (hneg : ¬ pixelCount w h < 0)
    (hshort : (rest2.length : Int) < pixelCount w h) :
    Process s = some [] := by
  unfold Process
  rw [ProcessF, hf]
  simp only [hd, if_neg hover, if_neg hneg, if_pos hshort]

/-- Unfolding: a successful extraction emits the encoded record and resumes
scanning at the first byte after the pixel payload. -/
theorem Process_extract {s : List Nat} {d : Nat} {after rest2 : List Nat}
    {w h : Int}
    (hf : FindHeader s = some (d :: after))
    (hd : ReadDimensions after = some ((w, h), rest2))
    (hover : ¬ (MaxWidth < w ∨ MaxHeight < h))
    (hneg : ¬ pixelCount w h < 0)
    (hshort : ¬ (rest2.length : Int) < pixelCount w h) :
    Process s = (Process (rest2.drop (pixelCount w h).toNat)).map
      (fun outs => (SaveAsBMP (rest2.take ((pixelCount w h).toNat)) w h).1 :: outs) := by
  have hlen1 : rest2.length < s.length := by
    have e1 := FindHeader_length hf
    have e2 := ReadDimensions_length hd
    simp only [List.length_cons] at e1
    omega
  unfold Process
  rw [ProcessF, hf]
  simp only [hd, if_neg hover, if_neg hneg, if_neg hshort]
  rw [ProcessF_congr s.length ((rest2.drop (pixelCount w h).toNat).length + 1) _
    (by rw [List.length_drop]; omega) (by omega)]

/-! ### The raster encoder -/

theorem swapTriples_length : ∀ l : List Nat, (swapTriples l).length = l.length
  | [] => rfl
  | [_] => rfl
  | [_, _] => rfl
  | _ :: _ :: _ :: rest => by
    simp only [swapTriples, List.length_cons]
    rw [swapTriples_length rest]

theorem swapTriples_invol : ∀ l : List Nat, swapTriples (swapTriples l) = l
  | [] => rfl
  | [_] => rfl
  | [_, _] => rfl
  | _ :: _ :: _ :: rest => by
    simp only [swapTriples]
    rw [swapTriples_invol rest]

theorem swapTriples_append :
    ∀ (l1 l2 : List Nat), l1.length % 3 = 0 →
      swapTriples (l1 ++ l2) = swapTriples l1 ++ swapTriples l2
  | [], _, _ => rfl
  | [_], _, h => by simp at h
  | [_, _], _, h => by simp at h
  | a :: b :: c :: rest, l2, h => by
    simp only [List.cons_append, swapTriples, List.append_eq]
    rw [swapTriples_append rest l2 (by simp only [List.length_cons] at h; omega)]

/-- Slices that stay inside the first summand of an append ignore the
second summand. -/
theorem drop_take_append {x : List Nat} (y : List Nat) {a b : Nat}
    (h : a + b ≤ x.length) :
    ((x ++ y).drop a).take b = (x.drop a).take b := by
  rw [List.drop_append_eq_append_drop]
  rw [Nat.sub_eq_zero_of_le (by omega), List.drop_zero]
  rw [List.take_append_of_le_length (by rw [List.length_drop]; omega)]

/-- Peeling the bottom row off the emitted pixel section. -/
theorem bmpPixelData_succ (img : List Nat) (w h pad : Nat) :
    bmpPixelData img w (h + 1) pad =
      (bmpRow img w h ++ List.replicate pad 0) ++ bmpPixelData img w h pad := by
  unfold bmpPixelData
  rw [List.range_succ, List.reverse_append, List.reverse_singleton]
  simp only [List.singleton_append, List.map_cons, List.flatten_cons]

/-- The emitted pixel section only reads the first w * 3 * h bytes of the
pixel buffer. -/
theorem bmpPixelData_left (x y : List Nat) (w h pad : Nat)
    (hx : w * 3 * h ≤ x.length) :
    bmpPixelData (x ++ y) w h pad = bmpPixelData x w h pad := by
  unfold bmpPixelData
  refine congrArg List.flatten (List.map_congr_left ?_)
  intro i hi
  rw [List.mem_reverse, List.mem_range] at hi
  unfold bmpRow
  rw [drop_take_append y (by nlinarith)]

theorem chunksOf_nil (n : Nat) : chunksOf n [] = [] := by
  rw [chunksOf]
  simp

/-- Chopping off one full chunk at the front. -/
theorem chunksOf_append {x : List Nat} (y : List Nat) {n : Nat}
    (hx : x.length = n) (hn : n ≠ 0) :
    chunksOf n (x ++ y) = x :: chunksOf n y := by
  have hne : ¬(x ++ y = [] ∨ n = 0) := by
    rintro (he | he)
    · obtain ⟨hx0, -⟩ := List.append_eq_nil.mp he
      subst hx0
      simp at hx
      omega
    · exact hn he
  have h1 : (x ++ y).take n = x := by
    rw [List.take_append_of_le_length (le_of_eq hx.symm)]
    rw [← hx, List.take_length]
  have h2 : (x ++ y).drop n = y := by
    rw [List.drop_append_of_le_length (le_of_eq hx.symm)]
    rw [← hx, List.drop_length, List.nil_append]
  rw [chunksOf, dif_neg hne, h1, h2]

/-- Length of one emitted row with its padding. -/
theorem bmpRow_pad_length (img : List Nat) (w i pad : Nat)
    (h : i * w * 3 + w * 3 ≤ img.length) :
    (bmpRow img w i ++ List.replicate pad 0).length = w * 3 + pad := by
  unfold bmpRow
  rw [List.length_append, swapTriples_length, List.length_take,
    List.length_drop, List.length_replicate]
  omega

/-- Length of the emitted pixel section: height rows of width * 3 + padding
bytes each. -/
theorem bmpPixelData_length (img : List Nat) (w pad : Nat) :
    ∀ h, w * 3 * h ≤ img.length →
      (bmpPixelData img w h pad).length = h * (w * 3 + pad) := by
  intro h
  induction h with
  | zero => intro _; simp [bmpPixelData]
  | succ h ih =>
    intro hlen
    rw [bmpPixelData_succ, List.length_append]
    rw [bmpRow_pad_length img w h pad (by nlinarith)]
    rw [ih (by nlinarith)]
    ring

/-- Decoding inverts encoding: cutting the emitted pixel section back into
rows, reversing the bottom-up order, dropping the padding and swapping the
channels back recovers the pixel buffer exactly. -/
theorem decode_bmpPixelData :
    ∀ (h : Nat) (img : List Nat) (w : Nat), 0 < w →
      img.length = w * 3 * h →
      decodePixelData (bmpPixelData img w h (padNat w)) w = img := by
  intro h
  induction h with
  | zero =>
    intro img w hw hlen
    have himg : img = [] := List.eq_nil_of_length_eq_zero (by omega)
    subst himg
    rw [show bmpPixelData [] w 0 (padNat w) = [] from rfl]
    unfold decodePixelData
    rw [chunksOf_nil]
    rfl
  | succ h ih =>
    intro img w hw hlen
    have hlen2 : img.length = w * 3 * h + w * 3 := by rw [hlen]; ring
    have hm : w * 3 + padNat w ≠ 0 := by
      unfold padNat
      omega
    have hdroplen : (img.drop (w * 3 * h)).length = w * 3 := by
      rw [List.length_drop]
      omega
    have hrow : bmpRow img w h = swapTriples (img.drop (w * 3 * h)) := by
      unfold bmpRow
      rw [show h * w * 3 = w * 3 * h from by ring]
      rw [List.take_of_length_le (by rw [List.length_drop]; omega)]
    have hblock :
        (bmpRow img w h ++ List.replicate (padNat w) 0).length
          = w * 3 + padNat w := by
      rw [List.length_append, hrow, swapTriples_length, hdroplen,
        List.length_replicate]
    have hrowlen : (bmpRow img w h).length = w * 3 := by
      rw [hrow, swapTriples_length, hdroplen]
    have htake : (bmpRow img w h ++ List.replicate (padNat w) 0).take (w * 3)
        = bmpRow img w h := by
      rw [List.take_append_of_le_length (le_of_eq hrowlen.symm)]
      rw [List.take_of_length_le (le_of_eq hrowlen)]
    have htop : bmpPixelData img w h (padNat w)
        = bmpPixelData (img.take (w * 3 * h)) w h (padNat w) := by
      conv_lhs => rw [← List.take_append_drop (w * 3 * h) img]
      rw [bmpPixelData_left _ _ w h (padNat w)
        (by rw [List.length_take]; omega)]
    rw [bmpPixelData_succ, htop]
    unfold decodePixelData
    rw [chunksOf_append _ hblock hm]
    rw [List.reverse_cons, List.map_append, List.flatten_append]
    have hA : (((chunksOf (w * 3 + padNat w)
          (bmpPixelData (img.take (w * 3 * h)) w h (padNat w))).reverse.map
        (fun row => swapTriples (row.take (w * 3)))).flatten)
        = img.take (w * 3 * h) := by
      have := ih (img.take (w * 3 * h)) w hw
        (by rw [List.length_take]; omega)
      unfold decodePixelData at this
      exact this
    rw [hA]
    simp only [List.map_cons, List.map_nil, List.flatten_cons,
      List.flatten_nil, List.append_nil]
    rw [htake, hrow, swapTriples_invol, List.take_append_drop]

theorem rows_flatten_left (x y : List Nat) (w h : Nat)
    (hx : w * 3 * h ≤ x.length) :
    ((List.range h).map (fun i => bmpRow (x ++ y) w i)).flatten
      = ((List.range h).map (fun i => bmpRow x w i)).flatten := by
  refine congrArg List.flatten (List.map_congr_left ?_)
  intro i hi
  rw [List.mem_range] at hi
  unfold bmpRow
  rw [drop_take_append y (by nlinarith)]

/-- The pixel buffer after SaveAsBMP returns is the original buffer with
channels 0 and 2 of every pixel swapped: the in-place row swaps together
cover the whole buffer exactly once. -/
theorem rows_flatten_eq_swapTriples :
    ∀ (h : Nat) (img : List Nat) (w : Nat), img.length = w * 3 * h →
      ((List.range h).map (fun i => bmpRow img w i)).flatten = swapTriples img := by
  intro h
  induction h with
  | zero =>
    intro img w hlen
    have himg : img = [] := List.eq_nil_of_length_eq_zero (by omega)
    subst himg
    rfl
  | succ h ih =>
    intro img w hlen
    have hlen2 : img.length = w * 3 * h + w * 3 := by rw [hlen]; ring
    rw [List.range_succ, List.map_append, List.flatten_append]
    simp only [List.map_cons, List.map_nil, List.flatten_cons,
      List.flatten_nil, List.append_nil]
    have hrow : bmpRow img w h = swapTriples (img.drop (w * 3 * h)) := by
      unfold bmpRow
      rw [show h * w * 3 = w * 3 * h from by ring]
      rw [List.take_of_length_le (by rw [List.length_drop]; omega)]
    have htop : ((List.range h).map (fun i => bmpRow img w i)).flatten
        = swapTriples (img.take (w * 3 * h)) := by
      conv_lhs => rw [← List.take_append_drop (w * 3 * h) img]
      rw [rows_flatten_left _ _ w h (by rw [List.length_take]; omega)]
      exact ih (img.take (w * 3 * h)) w (by rw [List.length_take]; omega)
    rw [htop, hrow]
    rw [← swapTriples_append _ _ (by
      rw [List.length_take, min_eq_left (by omega)]
      rw [show w * 3 * h = 3 * (w * h) from by ring, Nat.mul_mod_right])]
    rw [List.take_append_drop]

theorem SaveAsBMP_buffer (img : List Nat) (w h : Nat)
    (hlen : img.length = w * 3 * h) :
    (SaveAsBMP img (w : Int) (h : Int)).2 = swapTriples img := by
  unfold SaveAsBMP
  simp only [Int.toNat_natCast]
  rw [rows_flatten_eq_swapTriples h img w hlen]
  rw [List.drop_eq_nil_of_le (le_of_eq (by rw [hlen]; ring))]
  rw [List.append_nil]

/-! ### Dimension and header field arithmetic -/

theorem toSigned32_small {n : Nat} (h : n < 2 ^ 31) : toSigned32 n = (n : Int) := by
  unfold toSigned32
  rw [if_pos h]

theorem ReadDimensions_le4 (w h : Nat) (hw : w < 2 ^ 31) (hh : h < 2 ^ 31)
    (rest : List Nat) :
    ReadDimensions (le4 w ++ (le4 h ++ rest)) = some (((w : Int), (h : Int)), rest) := by
  unfold ReadDimensions
  simp only [ReadLE32_le4 w (by omega), ReadLE32_le4 h (by omega)]
  rw [toSigned32_small hw, toSigned32_small hh]

theorem pixelCount_small (w h : Int) (hw : 0 ≤ w) (hw2 : w ≤ 2000)
    (hh : 0 ≤ h) (hh2 : h ≤ 2000) : pixelCount w h = w * h * 3 := by
  unfold pixelCount
  have hb : (0 : Int) ≤ w * h * 3 := by positivity
  have hub : w * h * 3 ≤ 12000000 := by nlinarith
  rw [Int.emod_eq_of_lt hb (by omega)]
  rw [toSigned32_small (by omega)]
  rw [Int.toNat_of_nonneg hb]

theorem padNat_mod (w : Nat) : (w * 3 + padNat w) % 4 = 0 := by
  unfold padNat
  omega

theorem padNat_lt (w : Nat) : padNat w < 4 := by
  unfold padNat
  omega

theorem paddingAmount_natCast (w : Nat) :
    paddingAmount (w : Int) = ((padNat w : Nat) : Int) := by
  unfold paddingAmount padNat
  have h0 : (0 : Int) ≤ (w : Int) * 3 := by positivity
  have hx0 : (0 : Int) ≤ ((w : Int) * 3) % 4 := Int.emod_nonneg _ (by norm_num)
  have hx4 : ((w : Int) * 3) % 4 < 4 := Int.emod_lt_of_pos _ (by norm_num)
  rw [Int.tmod_eq_emod h0 (by norm_num)]
  rw [Int.tmod_eq_emod (by omega) (by norm_num)]
  omega

theorem byteAt_natCast (n k : Nat) :
    byteAt (n : Int) k = ((n / 2 ^ k % 256 : Nat) : Int) := by
  unfold byteAt
  have e2 : ((2 : Int) ^ k) = ((2 ^ k : Nat) : Int) := by push_cast; ring
  rw [e2, ← Int.ofNat_fdiv]
  norm_cast

/-- The four bytes patched into offsets 2..5 of the file header are the
little-endian encoding of the file size. -/
theorem bmpFileHeader_le4 (N : Nat) :
    ((bmpFileHeader (N : Int)).drop 2).take 4 = le4 N := by
  unfold bmpFileHeader le4
  simp only [byteAt_natCast, Int.toNat_natCast]
  norm_num

theorem ReadDimensions_le4_gen (wb hb : Nat) (hw : wb < 2 ^ 32)
    (hh : hb < 2 ^ 32) (rest : List Nat) :
    ReadDimensions (le4 wb ++ (le4 hb ++ rest)) =
      some ((toSigned32 wb, toSigned32 hb), rest) := by
  unfold ReadDimensions
  simp only [ReadLE32_le4 wb hw, ReadLE32_le4 hb hh]

theorem ReadDimensions_short (s : List Nat) (h : s.length < 8) :
    ReadDimensions s = none := by
  unfold ReadDimensions
  cases h1 : ReadLE32 s with
  | none => rfl
  | some p =>
    obtain ⟨v, r⟩ := p
    have := ReadLE32_length h1
    simp only [ReadLE32_short r (by omega)]

/-! ### The claims -/

/-- C6: the header parser reads exactly 4 bytes per integer and combines
them little-endian as b0 | b1 shifted 8 | b2 shifted 16 | b3 shifted 24; it
reads width first, then height, each reinterpreted as a signed 32-bit
value, and it fails with a truncation error, producing no dimensions,
whenever fewer than 4 bytes remain for either read. -/
theorem c6_dimensionReads :
    (∀ (b0 b1 b2 b3 : Nat) (rest : List Nat),
      b0 < 256 → b1 < 256 → b2 < 256 → b3 < 256 →
        ReadLE32 (b0 :: b1 :: b2 :: b3 :: rest) =
          some (b0 + b1 * 256 + b2 * 65536 + b3 * 16777216, rest)) ∧
    (∀ s : List Nat, s.length < 4 → ReadLE32 s = none) ∧
    (∀ (wb hb : Nat) (rest : List Nat), wb < 2 ^ 32 → hb < 2 ^ 32 →
      ReadDimensions (le4 wb ++ (le4 hb ++ rest)) =
        some ((toSigned32 wb, toSigned32 hb), rest)) ∧
    (∀ s : List Nat, s.length < 8 → ReadDimensions s = none) := by
  refine ⟨?_, ReadLE32_short, ?_, ReadDimensions_short⟩
  · intro b0 b1 b2 b3 rest h0 h1 h2 h3
    simp only [ReadLE32]
    rw [le32_value b0 b1 b2 b3 h0 h1 h2 h3]
  · intro wb hb rest hw hh
    exact ReadDimensions_le4_gen wb hb hw hh rest

/-- Witness for C6 at a concrete stream. -/
theorem c6_dimensionReads_witness :
    ReadLE32 [1, 2, 0, 0, 99] =
      some (1 + 2 * 256 + 0 * 65536 + 0 * 16777216, [99]) :=
  c6_dimensionReads.1 1 2 0 0 [99] (by decide) (by decide) (by decide) (by decide)

/-- C7: the marker scanner succeeds exactly on the streams in which the
marker occurs; on success the cursor stands immediately after the earliest
occurrence of the marker (the returned remainder is the longest one over
all occurrences), and exhausting the stream without a match is a failure. -/
theorem c7_scanner (s : List Nat) :
    ((FindHeader s).isSome ↔ headerBytes <:+: s) ∧
    (FindHeader s = none ↔ ¬ headerBytes <:+: s) ∧
    (∀ r, FindHeader s = some r →
      ∃ a, s = a ++ headerBytes ++ r ∧
        ∀ a2 r2, s = a2 ++ headerBytes ++ r2 → r2.length ≤ r.length) := by
  refine ⟨?_, FindHeader_none_iff, ?_⟩
  · rw [← not_iff_not]
    rw [Option.not_isSome_iff_eq_none]
    exact FindHeader_none_iff
  · intro r hr
    obtain ⟨a, ha⟩ := FindHeader_some_decomp hr
    exact ⟨a, ha, FindHeader_first hr⟩

/-- Witness for C7 at a concrete stream. -/
theorem c7_scanner_witness :
    headerBytes <:+: ([0] ++ headerBytes ++ [7, 8]) :=
  (c7_scanner ([0] ++ headerBytes ++ [7, 8])).1.mp (by decide)

/-- C1 counterexample: a record with width 0 (violating the positivity half
of the stated invariant, with height 1 in bounds) is not skipped: the
driver parses it, reads zero pixel bytes, and emits a 54-byte output file
consisting of the two headers, so an output file is produced. -/
theorem c1_counterexample :
    ReadDimensions [0, 0, 0, 0, 1, 0, 0, 0] = some ((0, 1), []) ∧
    (Process (headerBytes ++ [10, 0, 0, 0, 0, 1, 0, 0, 0])).map
      (List.map List.length) = some [54] := by
  constructor
  · decide
  · decide

/-- C1 amended: only the upper bounds are validated.  A record whose parsed
width or height exceeds the maximum is skipped without consuming pixel
data: the run continues scanning right behind the header bytes, emitting
exactly whatever the rest of the stream yields.  Positivity is not checked
(see the counterexample). -/
theorem c1_amended {s : List Nat} {d : Nat} {after rest2 : List Nat}
    {w h : Int}
    (hf : FindHeader s = some (d :: after))
    (hd : ReadDimensions after = some ((w, h), rest2))
    (hover : MaxWidth < w ∨ MaxHeight < h) :
    Process s = Process rest2 :=
  Process_oversized hf hd hover

/-- Witness for the amended C1 at a concrete oversized record. -/
theorem c1_amended_witness :
    Process (headerBytes ++ [10, 209, 7, 0, 0, 1, 0, 0, 0]) = Process [] :=
  @c1_amended (headerBytes ++ [10, 209, 7, 0, 0, 1, 0, 0, 0]) 10
    [209, 7, 0, 0, 1, 0, 0, 0] [] 2001 1 (by decide) (by decide) (by decide)

/-- C8: a marker followed by a truncated record (fewer than the 1 + 8 bytes
of delimiter and header, or, for in-bounds positive dimensions, fewer than
width * height * 3 pixel bytes) produces no output file for that record and
the run ends normally rather than aborting; stated here for the first
marker occurrence, whose failed read puts the stream in a failed state, so
the run ends with no output at all. -/
theorem c8_truncated {s rest : List Nat}
    (hf : FindHeader s = some rest)
    (htrunc : rest.length < 9 ∨
      ∃ (d : Nat) (after rest2 : List Nat) (w h : Int),
        rest = d :: after ∧ ReadDimensions after = some ((w, h), rest2) ∧
        0 < w ∧ w ≤ 2000 ∧ 0 < h ∧ h ≤ 2000 ∧
        (rest2.length : Int) < w * h * 3) :
    Process s = some [] := by
  rcases htrunc with hshort | ⟨d, after, rest2, w, h, hrest, hd, hw1, hw2, hh1, hh2, hpix⟩
  · cases rest with
    | nil => exact Process_markerAtEnd hf
    | cons d after =>
      simp only [List.length_cons] at hshort
      exact Process_truncatedDims hf (ReadDimensions_short after (by omega))
  · subst hrest
    have hover : ¬ (MaxWidth < w ∨ MaxHeight < h) := by
      unfold MaxWidth MaxHeight
      omega
    have hpc : pixelCount w h = w * h * 3 :=
      pixelCount_small w h (by omega) hw2 (by omega) hh2
    refine Process_truncatedPixels hf hd hover ?_ ?_
    · rw [hpc]
      nlinarith
    · rw [hpc]
      exact hpix

/-- Witness for C8: a marker followed by a single delimiter byte. -/
theorem c8_truncated_witness : Process (headerBytes ++ [10]) = some [] :=
  @c8_truncated (headerBytes ++ [10]) [10] (by decide) (Or.inl (by decide))

/-- C9 counterexample: a record parsing to width -1, height 1 passes the
upper-bound check, and the computed pixel byte count -3 makes the
std::vector constructor throw an exception that Process does not catch:
the run aborts instead of ending through scanner exhaustion. -/
theorem c9_counterexample :
    Process (headerBytes ++ [10, 255, 255, 255, 255, 1, 0, 0, 0]) = none := by
  decide

/-- C9 amended: the loop is total, and apart from runs aborted by a record
with a negative computed pixel byte count (see the counterexample), it ends
through scanner exhaustion; in particular a stream with no marker
occurrence yields a normal run with zero output files. -/
theorem c9_amended {s : List Nat} (h : ¬ headerBytes <:+: s) :
    Process s = some [] :=
  Process_noMarker (FindHeader_none_iff.mpr h)

/-- Witness for the amended C9 on a concrete marker-free stream. -/
theorem c9_amended_witness : Process [1, 2, 3] = some [] :=
  @c9_amended [1, 2, 3] (by decide)

/-- C10: after a successful extraction the driver resumes the marker search
at the first byte behind the width * height * 3 pixel bytes of the record:
the emitted outputs are the encoded record followed by exactly the outputs
of the run on the stream after the payload, so payload bytes are never
scanned for markers. -/
theorem c10_resume {s : List Nat} {d : Nat} {after rest2 : List Nat}
    {w h : Int}
    (hf : FindHeader s = some (d :: after))
    (hd : ReadDimensions after = some ((w, h), rest2))
    (hw1 : 0 ≤ w) (hw2 : w ≤ 2000) (hh1 : 0 ≤ h) (hh2 : h ≤ 2000)
    (hlen : w * h * 3 ≤ (rest2.length : Int)) :
    Process s = (Process (rest2.drop ((w * h * 3).toNat))).map
      (fun outs => (SaveAsBMP (rest2.take ((w * h * 3).toNat)) w h).1 :: outs) := by
  have hover : ¬ (MaxWidth < w ∨ MaxHeight < h) := by
    unfold MaxWidth MaxHeight
    omega
  have hpc : pixelCount w h = w * h * 3 :=
    pixelCount_small w h hw1 hw2 hh1 hh2
  have hx := Process_extract hf hd hover
    (by rw [hpc]; simp only [not_lt]; positivity)
    (by rw [hpc]; omega)
  rwa [hpc] at hx

/-- Witness for C10: a 1 by 1 record with one trailing byte. -/
theorem c10_resume_witness :
    Process (headerBytes ++ [10, 1, 0, 0, 0, 1, 0, 0, 0, 5, 6, 7, 9]) =
      (Process [9]).map
        (fun outs => (SaveAsBMP [5, 6, 7] 1 1).1 :: outs) :=
  @c10_resume (headerBytes ++ [10, 1, 0, 0, 0, 1, 0, 0, 0, 5, 6, 7, 9]) 10
    [1, 0, 0, 0, 1, 0, 0, 0, 5, 6, 7, 9] [5, 6, 7, 9] 1 1
    (by decide) (by decide) (by decide) (by decide) (by decide)
    (by decide) (by decide)

/-- C3 counterexample: encoding a 1 by 1 image leaves the channels of the
pixel buffer handed in swapped; the buffer is not unchanged after
encoding. -/
theorem c3_counterexample : (SaveAsBMP [10, 20, 30] 1 1).2 ≠ [10, 20, 30] := by
  decide

/-- C3 amended: the encoded bytes are a function of the pixel buffer and
the dimensions alone, given by the stated header and pixel-section
expression; but the pixel buffer handed to the encoder does not come back
unchanged: after encoding it holds the original bytes with channels 0 and
2 of every pixel swapped, because the swap is performed in place through a
const_cast. -/
theorem c3_amended (img : List Nat) (w h : Nat)
    (hlen : img.length = w * 3 * h) :
    (SaveAsBMP img (w : Int) (h : Int)).1 =
      bmpFileHeader (bmpFileSize (w : Int) (h : Int)) ++
        bmpInfoHeader (w : Int) (h : Int) ++
        bmpPixelData img w h (padNat w) ∧
    (SaveAsBMP img (w : Int) (h : Int)).2 = swapTriples img := by
  constructor
  · simp only [SaveAsBMP, Int.toNat_natCast, paddingAmount_natCast]
  · exact SaveAsBMP_buffer img w h hlen

/-- Witness for the amended C3 at a concrete 1 by 2 image. -/
theorem c3_amended_witness :
    (SaveAsBMP [1, 2, 3, 4, 5, 6] 1 2).2 = swapTriples [1, 2, 3, 4, 5, 6] :=
  (c3_amended [1, 2, 3, 4, 5, 6] 1 2 (by decide)).2

/-- C4: on the concrete stream of the spec scenario the driver emits
exactly one output of 62 bytes whose pixel region after the 54 header
bytes is the channel-swapped row followed by two padding zeros. -/
theorem c4_concrete :
    (Process (headerBytes ++
        [10, 2, 0, 0, 0, 1, 0, 0, 0, 10, 20, 30, 40, 50, 60])).map
      (List.map List.length) = some [62] ∧
    (Process (headerBytes ++
        [10, 2, 0, 0, 0, 1, 0, 0, 0, 10, 20, 30, 40, 50, 60])).map
      (List.map (List.drop 54)) = some [[30, 20, 10, 60, 50, 40, 0, 0]] := by
  constructor
  · decide
  · decide

/-- C2: a stream whose first marker occurrence is followed by one complete
well-formed record (delimiter byte, in-bounds positive little-endian width
and height, exactly width * height * 3 pixel bytes, end of stream) makes
the driver emit exactly one output; cutting that output behind the 54
header bytes and undoing the bottom-up row order, the channel swap and the
row padding recovers the original pixel bytes exactly. -/
theorem c2_roundtrip (w h d : Nat) (pix s : List Nat)
    (hw1 : 0 < w) (hw2 : w ≤ 2000) (hh1 : 0 < h) (hh2 : h ≤ 2000)
    (hlen : pix.length = w * h * 3)
    (hfind : FindHeader s = some (d :: (le4 w ++ (le4 h ++ pix)))) :
    ∃ out, Process s = some [out] ∧ decodePixelData (out.drop 54) w = pix := by
  have hd : ReadDimensions (le4 w ++ (le4 h ++ pix)) =
      some (((w : Int), (h : Int)), pix) :=
    ReadDimensions_le4 w h (by omega) (by omega) pix
  have hover : ¬ (MaxWidth < (w : Int) ∨ MaxHeight < (h : Int)) := by
    unfold MaxWidth MaxHeight
    omega
  have hpc : pixelCount (w : Int) (h : Int) = ((w * h * 3 : Nat) : Int) := by
    rw [pixelCount_small _ _ (by positivity) (by omega) (by positivity) (by omega)]
    push_cast
    ring
  have hx := Process_extract hfind hd hover
    (by rw [hpc]; simp only [not_lt]; positivity)
    (by rw [hpc]; omega)
  have hn : (pixelCount (w : Int) (h : Int)).toNat = w * h * 3 := by
    rw [hpc, Int.toNat_natCast]
  rw [hn] at hx
  rw [List.drop_eq_nil_of_le (le_of_eq hlen)] at hx
  rw [@Process_noMarker [] rfl] at hx
  simp only [Option.map_some'] at hx
  refine ⟨(SaveAsBMP (pix.take (w * h * 3)) (w : Int) (h : Int)).1, hx, ?_⟩
  rw [List.take_of_length_le (le_of_eq hlen)]
  have hout : (SaveAsBMP pix (w : Int) (h : Int)).1 =
      bmpFileHeader (bmpFileSize (w : Int) (h : Int)) ++
        bmpInfoHeader (w : Int) (h : Int) ++
        bmpPixelData pix w h (padNat w) := by
    simp only [SaveAsBMP, Int.toNat_natCast, paddingAmount_natCast]
  rw [hout]
  rw [show (54 : Nat) = (bmpFileHeader (bmpFileSize (w : Int) (h : Int)) ++
      bmpInfoHeader (w : Int) (h : Int)).length from by
    simp [bmpFileHeader, bmpInfoHeader]]
  rw [List.drop_left]
  exact decode_bmpPixelData h pix w hw1 (by rw [hlen]; ring)

/-- Witness for C2 at a concrete 1 by 1 record. -/
theorem c2_roundtrip_witness :
    ∃ out, Process (headerBytes ++ [10, 1, 0, 0, 0, 1, 0, 0, 0, 9, 8, 7]) =
        some [out] ∧
      decodePixelData (out.drop 54) 1 = [9, 8, 7] :=
  c2_roundtrip 1 1 10 [9, 8, 7]
    (headerBytes ++ [10, 1, 0, 0, 0, 1, 0, 0, 0, 9, 8, 7])
    (by decide) (by decide) (by decide) (by decide) (by decide) (by decide)

theorem bmpFileHeader_length (z : Int) : (bmpFileHeader z).length = 14 := rfl

theorem bmpInfoHeader_length (a b : Int) : (bmpInfoHeader a b).length = 40 := by
  simp [bmpInfoHeader]

/-- C5: for every valid dimension pair (both positive, both at most 2000)
and a pixel buffer honouring the caller contract, the row padding is
(4 - (width * 3) % 4) % 4, it makes width * 3 + padding a multiple of 4
and lies in [0, 4); the file size 54 + (width * 3 + padding) * height fits
the 4-byte field, the field at offsets 2..5 of the output carries its
little-endian encoding, and it equals the exact byte length of the entire
encoded output. -/
theorem c5_fileSize (w h : Int) (img : List Nat)
    (hw1 : 0 < w) (hw2 : w ≤ 2000) (hh1 : 0 < h) (hh2 : h ≤ 2000)
    (hlen : (img.length : Int) = w * 3 * h) :
    paddingAmount w = (4 - (w * 3).tmod 4).tmod 4 ∧
    (w * 3 + paddingAmount w).tmod 4 = 0 ∧
    0 ≤ paddingAmount w ∧ paddingAmount w < 4 ∧
    bmpFileSize w h = 54 + (w * 3 + paddingAmount w) * h ∧
    bmpFileSize w h < 2 ^ 32 ∧
    (((SaveAsBMP img w h).1.length : Int)) = bmpFileSize w h ∧
    ((SaveAsBMP img w h).1.drop 2).take 4 = le4 ((bmpFileSize w h).toNat) := by
  lift w to Nat using le_of_lt hw1 with wn
  lift h to Nat using le_of_lt hh1 with hn
  have hwn1 : 0 < wn := by exact_mod_cast hw1
  have hwn2 : wn ≤ 2000 := by exact_mod_cast hw2
  have hhn1 : 0 < hn := by exact_mod_cast hh1
  have hhn2 : hn ≤ 2000 := by exact_mod_cast hh2
  have hlenN : img.length = wn * 3 * hn := by exact_mod_cast hlen
  have hpad := paddingAmount_natCast wn
  have hpadmod := padNat_mod wn
  have hpadlt := padNat_lt wn
  have hsize : bmpFileSize (wn : Int) (hn : Int) =
      (((54 + (wn * 3 + padNat wn) * hn : Nat)) : Int) := by
    unfold bmpFileSize
    rw [hpad]
    push_cast
    ring
  have hout : (SaveAsBMP img (wn : Int) (hn : Int)).1 =
      bmpFileHeader (bmpFileSize (wn : Int) (hn : Int)) ++
        bmpInfoHeader (wn : Int) (hn : Int) ++
        bmpPixelData img wn hn (padNat wn) := by
    simp only [SaveAsBMP, Int.toNat_natCast, paddingAmount_natCast]
  refine ⟨rfl, ?_, ?_, ?_, rfl, ?_, ?_, ?_⟩
  · rw [hpad]
    have hcast : ((wn : Int)) * 3 + ((padNat wn : Nat) : Int) =
        (((wn * 3 + padNat wn : Nat)) : Int) := by push_cast; ring
    rw [hcast, Int.tmod_eq_emod (by positivity) (by norm_num)]
    omega
  · rw [hpad]
    positivity
  · rw [hpad]
    exact_mod_cast hpadlt
  · rw [hsize]
    have hb : 54 + (wn * 3 + padNat wn) * hn < 4294967296 := by nlinarith
    have h32 : ((2 : Int) ^ 32) = (4294967296 : Int) := by norm_num
    rw [h32]
    exact_mod_cast hb
  · rw [hout]
    rw [List.length_append, List.length_append]
    rw [bmpFileHeader_length, bmpInfoHeader_length]
    rw [bmpPixelData_length img wn (padNat wn) hn (le_of_eq hlenN.symm)]
    rw [hsize]
    push_cast
    ring
  · rw [hout, hsize, Int.toNat_natCast]
    rw [drop_take_append _ (by
      rw [List.length_append, bmpFileHeader_length, bmpInfoHeader_length]
      norm_num)]
    rw [drop_take_append _ (by rw [bmpFileHeader_length]; norm_num)]
    exact bmpFileHeader_le4 (54 + (wn * 3 + padNat wn) * hn)

/-- Witness for C5 at a concrete 1 by 1 image. -/
theorem c5_fileSize_witness :
    paddingAmount 1 = (4 - ((1 : Int) * 3).tmod 4).tmod 4 ∧
    ((1 : Int) * 3 + paddingAmount 1).tmod 4 = 0 ∧
    0 ≤ paddingAmount 1 ∧ paddingAmount 1 < 4 ∧
    bmpFileSize 1 1 = 54 + ((1 : Int) * 3 + paddingAmount 1) * 1 ∧
    bmpFileSize 1 1 < 2 ^ 32 ∧
    (((SaveAsBMP [9, 9, 9] 1 1).1.length : Int)) = bmpFileSize 1 1 ∧
    ((SaveAsBMP [9, 9, 9] 1 1).1.drop 2).take 4 =
      le4 ((bmpFileSize 1 1).toNat) :=
  c5_fileSize 1 1 [9, 9, 9] (by decide) (by decide) (by decide) (by decide)
    (by decide)
